import Mathlib

/-!
Verification of the video-text transcription pipeline: a shallow embedding of
the segment shaping code (`src/modules/subtitler.py`), the SQLite-backed
segment store (`src/modules/indexer.py`), the job runner's progress
composition (`src/gui/main_window.py`, `src/modules/transcriber.py`) and the
scheduler's batch submission (`src/gui/main_window.py`), with theorems about
the properties stated in the specification.

Times are embedded as rationals, texts as strings, database rows as explicit
lists, a raised Python exception as `Except.error`.
-/

namespace VideoText

/-- A transcription segment: dict with keys `start`, `end`, `text` in the
source.  `endT` stands for the Python key `end` (a reserved word in Lean). -/
structure Segment where
  start : ℚ
  endT : ℚ
  text : String
deriving DecidableEq, Repr

/-! ## SubtitleGenerator.merge_short_segments (src/modules/subtitler.py:122-163) -/

/-- The loop of `merge_short_segments` once `current_segment` is set: `cur` is
`current_segment`, the incoming segment `s` is merged into it when the
incoming segment's duration is below `min_duration`, the combined character
count stays within `max_chars` and the gap is at most one second; otherwise
`cur` is emitted and `s` becomes the new accumulator. -/
def mergeLoop (min_duration : ℚ) (max_chars : ℕ) : Segment → List Segment → List Segment
  | cur, [] => [cur]
  | cur, s :: rest =>
    if s.endT - s.start < min_duration ∧
        cur.text.length + s.text.length ≤ max_chars ∧
        s.start - cur.endT ≤ 1 then
      mergeLoop min_duration max_chars
        { cur with endT := s.endT, text := cur.text ++ " " ++ s.text } rest
    else
      cur :: mergeLoop min_duration max_chars s rest

/-- `SubtitleGenerator.merge_short_segments`: the first segment seeds
`current_segment` (the `current_segment is None` branch), the rest run through
`mergeLoop`; an empty input is returned unchanged. -/
def merge_short_segments (segments : List Segment)
    (min_duration : ℚ := 1) (max_chars : ℕ := 100) : List Segment :=
  match segments with
  | [] => []
  | s :: rest => mergeLoop min_duration max_chars s rest

/-! ## SubtitleGenerator.split_long_segments (src/modules/subtitler.py:165-222) -/

/-- Python `' '.join(words)`. -/
def joinWords (ws : List String) : String := String.intercalate " " ws

/-- Python `text.split()`: split on whitespace, dropping empty pieces. -/
def pyWords (s : String) : List String :=
  (s.split Char.isWhitespace).filter (fun w => ¬ w = "")

/-- The greedy word-wrap loop of `split_long_segments`: `current` is
`current_line`; a word is appended while the joined test line fits in
`max_chars`, otherwise the current line is emitted (or the overlong word
itself when the current line is empty). -/
def wrapWords (max_chars : ℕ) : List String → List String → List String
  | current, [] => if current = [] then [] else [joinWords current]
  | current, w :: ws =>
    if (joinWords (current ++ [w])).length ≤ max_chars then
      wrapWords max_chars (current ++ [w]) ws
    else
      match current with
      | [] => w :: wrapWords max_chars [] ws
      | _ => joinWords current :: wrapWords max_chars [w] ws

/-- The `for i, line in enumerate(lines)` loop of `split_long_segments`:
line `i` spans `[a + i*d, a + (i+1)*d]` where `d` is `line_duration`. -/
def splitPieces (a d : ℚ) : ℕ → List String → List Segment
  | _, [] => []
  | i, line :: rest =>
    ⟨a + (i : ℚ) * d, a + ((i : ℚ) + 1) * d, line⟩ :: splitPieces a d (i + 1) rest

/-- The body of `split_long_segments` for one segment: a segment short enough
in text and duration passes through; otherwise its words are wrapped into
lines and the duration is divided evenly over them (an all-whitespace text
yields no lines and the segment passes through). -/
def splitOne (max_chars : ℕ) (max_duration : ℚ) (s : Segment) : List Segment :=
  let duration := s.endT - s.start
  if s.text.length ≤ max_chars ∧ duration ≤ max_duration then [s]
  else
    let lines := wrapWords max_chars [] (pyWords s.text)
    if lines = [] then [s]
    else splitPieces s.start (duration / (lines.length : ℚ)) 0 lines

/-- `SubtitleGenerator.split_long_segments`. -/
def split_long_segments (segments : List Segment)
    (max_chars : ℕ := 80) (max_duration : ℚ := 6) : List Segment :=
  segments.flatMap (splitOne max_chars max_duration)

/-- `SubtitleGenerator.optimize_subtitles` (src/modules/subtitler.py:224-232):
merge pass with its defaults, then split pass with its defaults. -/
def optimize_subtitles (segments : List Segment) : List Segment :=
  split_long_segments (merge_short_segments segments)

/-! ## TranscriptionIndexer (src/modules/indexer.py)

The SQLite state is embedded explicitly: the `videos` and `segments` tables
are lists of rows in rowid order, the `segments_fts` virtual table is a list
of `(rowid, text)` pairs, and the `AUTOINCREMENT` counters are carried in the
state.  The FTS sync triggers `segments_ai` / `segments_ad`
(src/modules/indexer.py:67-77) fire inside `insertSegment` and
`remove_video_index`. -/

/-- A row of the `videos` table. -/
structure VideoRow where
  id : ℕ
  path : String
  name : String
  size : ℕ
deriving DecidableEq, Repr

/-- A row of the `segments` table. -/
structure SegRow where
  id : ℕ
  videoId : ℕ
  seg : Segment
deriving DecidableEq, Repr

/-- The database state: both tables, the FTS projection, and the two
autoincrement counters. -/
structure DB where
  videos : List VideoRow
  segments : List SegRow
  fts : List (ℕ × String)
  nextVid : ℕ
  nextSid : ℕ
deriving DecidableEq, Repr

/-- A freshly initialised database (`init_database` creates empty tables;
SQLite rowids start from 1). -/
def emptyDB : DB := ⟨[], [], [], 1, 1⟩

/-- `TranscriptionIndexer.remove_video_index` (src/modules/indexer.py:241-262):
look up the video by path (`fetchone`), delete its segments (the `segments_ad`
trigger removes the FTS rows), then delete the video row.  This runs on its
own connection and commits on its own. -/
def remove_video_index (db : DB) (p : String) : DB :=
  match db.videos.find? (fun v => v.path == p) with
  | none => db
  | some v =>
    let dead := (db.segments.filter (fun s => s.videoId == v.id)).map (fun s => s.id)
    { db with
      segments := db.segments.filter (fun s => ! (s.videoId == v.id)),
      fts := db.fts.filter (fun r => ! dead.contains r.1),
      videos := db.videos.filter (fun w => ! (w.id == v.id)) }

/-- One `INSERT INTO segments` row: the `segments_ai` trigger adds the
matching FTS row. -/
def insertSegment (db : DB) (vid : ℕ) (s : Segment) : DB :=
  { db with
    segments := db.segments ++ [⟨db.nextSid, vid, s⟩],
    fts := db.fts ++ [(db.nextSid, s.text)],
    nextSid := db.nextSid + 1 }

/-- `conn.executemany` over the prepared segment tuples. -/
def insertSegments (db : DB) (vid : ℕ) : List Segment → DB
  | [] => db
  | s :: rest => insertSegments (insertSegment db vid s) vid rest

/-- The rows `executemany` produces for a segment list: consecutive rowids
from `sid`, all owned by video `vid`, in list order. -/
def segRowsFrom (sid vid : ℕ) : List Segment → List SegRow
  | [] => []
  | s :: rest => ⟨sid, vid, s⟩ :: segRowsFrom (sid + 1) vid rest

/-- `TranscriptionIndexer.index_video` (src/modules/indexer.py:95-130):
`remove_video_index` runs first (and commits separately), then the video row
and the segments whose text is non-empty after strip are inserted and
committed.  `name` and `size` stand for the values read from the filesystem. -/
def index_video (db : DB) (p name : String) (size : ℕ)
    (segments : List Segment) : DB :=
  let db1 := remove_video_index db p
  let vid := db1.nextVid
  let db2 := { db1 with
    videos := db1.videos ++ [⟨vid, p, name, size⟩],
    nextVid := vid + 1 }
  insertSegments db2 vid (segments.filter (fun s => ! (s.text.trim == "")))

/-- The committed database states a concurrent reader can observe during
`index_video`: the initial state, the state after `remove_video_index`'s own
commit (src/modules/indexer.py:258), and the state after the insert commit
(src/modules/indexer.py:123). -/
def index_video_states (db : DB) (p name : String) (size : ℕ)
    (segments : List Segment) : List DB :=
  [db, remove_video_index db p, index_video db p name size segments]

/-- The `ORDER BY` of a column: a stable sort on the key, rows with equal
keys staying in table (rowid) order. -/
def sortByStart (l : List Segment) : List Segment :=
  List.insertionSort (fun a b => a.start ≤ b.start) l

/-- The `FROM segments s JOIN videos v ON v.id = s.video_id WHERE v.path = ?`
rows of `get_all_segments`, in table-scan order. -/
def video_segment_join (db : DB) (p : String) : List Segment :=
  (db.segments.filter
    (fun s => db.videos.any (fun v => v.id == s.videoId && v.path == p))).map
      (fun s => s.seg)

/-- `TranscriptionIndexer.get_all_segments` (src/modules/indexer.py:205-225),
the query on a healthy connection: joined rows ordered by `start_time`. -/
def get_all_segments (db : DB) (p : String) : List Segment :=
  sortByStart (video_segment_join db p)

/-- `TranscriptionIndexer.is_video_indexed` (src/modules/indexer.py:231-239),
the query on a healthy connection: `fetchone` on the path lookup. -/
def is_video_indexed (db : DB) (p : String) : Bool :=
  (db.videos.find? (fun v => v.path == p)).isSome

/-- Python `query.replace('"', '""')` character by character. -/
def escQuotes : List Char → List Char
  | [] => []
  | c :: t => if c = '"' then '"' :: '"' :: escQuotes t else c :: escQuotes t

/-- Python `query.replace('"', '""')`. -/
def pyReplaceQuote (s : String) : String := String.mk (escQuotes s.data)

/-- `TranscriptionIndexer.prepare_fts_query` (src/modules/indexer.py:188-203):
strip, empty query becomes an empty phrase, a query with a space becomes a
quoted phrase with inner quotes doubled, anything else gets a `*` appended. -/
def prepare_fts_query (query : String) : String :=
  let q := query.trim
  if q = "" then "\"\""
  else if q.contains ' ' then "\"" ++ pyReplaceQuote q ++ "\""
  else q ++ "*"

/-- Number of double-quote characters in a string. -/
def quoteCount (s : String) : ℕ := s.data.count '"'

/-- Undo the quote doubling: every `""` pair collapses back to `"`.  Escaping
that admits this inverse loses no character and keeps their order. -/
def collapseQuotes : List Char → List Char
  | [] => []
  | [c] => [c]
  | c :: c' :: t =>
    if c = '"' ∧ c' = '"' then '"' :: collapseQuotes t
    else c :: collapseQuotes (c' :: t)

/-- Modelled from the spec: the FTS5 engine itself is not part of the
repository; per the spec's query-syntax concern, a double quote inside an
FTS5 string must be doubled, so any syntactically valid query string contains
an even number of double-quote characters.  An odd count means an
unterminated string, i.e. a query the engine rejects. -/
def ftsBalanced (s : String) : Prop := quoteCount s % 2 = 0

instance (s : String) : Decidable (ftsBalanced s) :=
  inferInstanceAs (Decidable (quoteCount s % 2 = 0))

/-- `TranscriptionIndexer.search` (src/modules/indexer.py:132-186) on a
healthy connection: resolve the video id by path (`fetchone`), prepare the
FTS query, keep the segments of that video matched by the engine, order by
the engine's `rank` column (`ORDER BY rank`, a stable sort — no further sort
key appears in the SQL), and apply `LIMIT`.  `engineMatch` and `engineRank`
abstract the external FTS5 `MATCH` operator and `rank` value on the prepared
query. -/
def search (db : DB) (p query : String) (engineMatch : String → String → Bool)
    (engineRank : String → String → ℚ) (lim : ℕ) : List Segment :=
  match db.videos.find? (fun v => v.path == p) with
  | none => []
  | some v =>
    let fts := prepare_fts_query query
    (List.insertionSort (fun a b => engineRank fts a.text ≤ engineRank fts b.text)
      ((db.segments.filter
        (fun s => s.videoId == v.id && engineMatch fts s.seg.text)).map
          (fun s => s.seg))).take lim

/-- The invariants the SQLite schema keeps for a committed database: rowids
are below the autoincrement counters and `path` is `UNIQUE`. -/
def DBWF (db : DB) : Prop :=
  (∀ v ∈ db.videos, v.id < db.nextVid) ∧
  (∀ s ∈ db.segments, s.videoId < db.nextVid) ∧
  (db.videos.map (fun v => v.path)).Nodup

instance (db : DB) : Decidable (DBWF db) := by
  unfold DBWF
  infer_instance

/-! ## Failure wrapping (src/modules/indexer.py:127-130, 227-229, 237-239)

A failing SQLite connection is embedded as `Except.error`: the `try` body
works on the `.ok` state, the `except` clause is the `.error` branch. -/

/-- `get_all_segments` with its `except` clause: on a storage failure the
method logs and returns `[]`. -/
def get_all_segments_result (r : Except String DB) (p : String) : List Segment :=
  match r with
  | .error _ => []
  | .ok db => get_all_segments db p

/-- `index_video` with its `except` clause: on a storage failure the method
raises `RuntimeError(f"Video indexing failed: {e}")`. -/
def index_video_result (r : Except String DB) (p name : String) (size : ℕ)
    (segments : List Segment) : Except String DB :=
  match r with
  | .error e => .error ("Video indexing failed: " ++ e)
  | .ok db => .ok (index_video db p name size segments)

/-- `is_video_indexed` with its `except` clause: on a storage failure the
method logs and returns `False`. -/
def is_video_indexed_result (r : Except String DB) (p : String) : Bool :=
  match r with
  | .error _ => false
  | .ok db => is_video_indexed db p

/-! ## Progress composition (src/gui/main_window.py:63-101,
src/modules/extractor.py:46-77, src/utils/ffmpeg_downloader.py:109-202)

The percentages a real `TranscriptionWorker.run` emits.  The run starts with
the fixed `10`, then `controller.extract_audio` threads the worker's
`audio_progress_callback` through the extractor and — when FFmpeg has to be
fetched — through the downloader, then the fixed `30` is emitted.  The next
line, `main_window.py:70`, passes four positional arguments
`(audio_path, model_name, language, progress_callback)` to
`TranscriptionController.transcribe_audio`, whose signature
(src/core/controller.py:41) takes only `(audio_path, progress_callback=None)`
— the call raises `TypeError` before the transcriber runs, the worker's
`except` fires, and the job completes as failed.  So no transcriber-band
value is ever emitted and the job-level sequence ends at the fixed `30`. -/

/-- Python `int()` on a rational: truncation toward zero. -/
def pyInt (q : ℚ) : ℤ := if q < 0 then -((-q).floor) else q.floor

/-- The percentages `FFmpegManager.download_ffmpeg` passes to its callback on
a successful download: `0` ("Starting download...",
ffmpeg_downloader.py:130), the `urlretrieve` hook values
`min(int(downloaded * 100 / total_size), 100)` (ffmpeg_downloader.py:135-136,
given as the parameter `dl` since they depend on network chunking), then the
fixed `90` ("Extracting...", line 141) and `100` ("Installation complete!",
line 176). -/
def download_ffmpeg_callbacks (dl : List ℤ) : List ℤ :=
  0 :: (dl ++ [90, 100])

/-- `FFmpegManager.ensure_ffmpeg` (ffmpeg_downloader.py:196-202): silent when
FFmpeg is already available, otherwise it forwards the callback to
`download_ffmpeg`. -/
def ensure_ffmpeg_callbacks (avail : Bool) (dl : List ℤ) : List ℤ :=
  if avail then [] else download_ffmpeg_callbacks dl

/-- The percentages `AudioExtractor.extract` passes to the worker's callback
on a successful extraction: `0` ("Checking FFmpeg...", extractor.py:50), the
`ensure_ffmpeg` emissions (the same callback is threaded through,
extractor.py:52), then the fixed `20` ("Starting audio extraction...",
line 56) and `50` ("Processing audio...", line 77). -/
def extract_callbacks (avail : Bool) (dl : List ℤ) : List ℤ :=
  0 :: (ensure_ffmpeg_callbacks avail dl ++ [20, 50])

/-- `TranscriptionWorker.audio_progress_callback`
(src/gui/main_window.py:94-101): `10 + int(percentage * 0.2)`. -/
def audio_band (p : ℤ) : ℤ := 10 + pyInt ((p : ℚ) * (2 / 10))

/-- A worker event: a `progress_updated` percent or a
`transcription_completed` flag. -/
inductive WorkerEvent
  | progress (pct : ℤ)
  | completed (success : Bool)
deriving DecidableEq, Repr

/-- The job-level percent sequence emitted by `TranscriptionWorker.run`
(src/gui/main_window.py:63-83): the fixed `10`, the extraction-stage
callbacks through `audio_band`, then the fixed `30` — at which point the
mis-matched `transcribe_audio` call (main_window.py:70 vs controller.py:41)
raises `TypeError`, so nothing further is emitted.  `avail` says whether
FFmpeg was already installed; `dl` are the download-hook percentages. -/
def worker_progress_seq (avail : Bool) (dl : List ℤ) : List ℤ :=
  10 :: ((extract_callbacks avail dl).map audio_band ++ [30])

/-- The full event stream of such a run: every progress event, then the
failure completion emitted by the worker's `except` clause
(main_window.py:81-83). -/
def worker_run_events (avail : Bool) (dl : List ℤ) : List WorkerEvent :=
  (worker_progress_seq avail dl).map WorkerEvent.progress ++
    [WorkerEvent.completed false]

/-- Non-decreasing test on an integer sequence. -/
def isNonDecreasing : List ℤ → Bool
  | [] => true
  | [_] => true
  | a :: b :: t => a ≤ b && isNonDecreasing (b :: t)

/-! ## MainWindow.start_transcription (src/gui/main_window.py:462-476) -/

/-- One iteration of the submission loop, on the accumulator
(worker table keys, paths started, paths short-circuited to 100): a path
with a live worker is skipped (`if path in self.workers: continue`), an
already indexed path only has its task widget set to 100, any other path
gets a fresh worker registered and started. -/
def submitStep (indexed : String → Bool)
    (acc : List String × List String × List String) (path : String) :
    List String × List String × List String :=
  if path ∈ acc.1 then acc
  else if indexed path then (acc.1, acc.2.1, acc.2.2 ++ [path])
  else (acc.1 ++ [path], acc.2.1 ++ [path], acc.2.2)

/-- The submission loop of `MainWindow.start_transcription` over the queued
paths, starting from the current worker table. -/
def start_transcription (tasks : List String) (indexed : String → Bool)
    (workers : List String) : List String × List String × List String :=
  tasks.foldl (submitStep indexed) (workers, [], [])

/-! ## Claim theorems -/

/-- C1: `index_video` is *not* atomic.  `remove_video_index` opens its own
connection and commits on its own (src/modules/indexer.py:244,258) before the
insert transaction commits (src/modules/indexer.py:123), so the state after
the delete is a committed state a concurrent reader can observe; at that
point the prior record and segments for the path are gone while the new ones
are absent — a partial write, contradicting the delete-then-insert-in-one-
transaction property.  On a database holding one old segment for the path,
re-indexing with one new segment exposes an intermediate committed state
where the video is not indexed at all and has no segments. -/
theorem index_video_partial_write_observable :
    (remove_video_index (index_video emptyDB ("v.mp4") ("v.mp4") 7
        [⟨0, 1, "old"⟩]) ("v.mp4")) ∈
      index_video_states (index_video emptyDB ("v.mp4") ("v.mp4") 7
        [⟨0, 1, "old"⟩]) ("v.mp4") ("v.mp4") 7 [⟨0, 1, "new"⟩] ∧
    get_all_segments (index_video emptyDB ("v.mp4") ("v.mp4") 7
        [⟨0, 1, "old"⟩]) ("v.mp4") = [⟨0, 1, "old"⟩] ∧
    get_all_segments (index_video (index_video emptyDB ("v.mp4") ("v.mp4") 7
        [⟨0, 1, "old"⟩]) ("v.mp4") ("v.mp4") 7 [⟨0, 1, "new"⟩]) ("v.mp4") =
      [⟨0, 1, "new"⟩] ∧
    get_all_segments (remove_video_index (index_video emptyDB ("v.mp4")
        ("v.mp4") 7 [⟨0, 1, "old"⟩]) ("v.mp4")) ("v.mp4") = [] ∧
    is_video_indexed (remove_video_index (index_video emptyDB ("v.mp4")
        ("v.mp4") 7 [⟨0, 1, "old"⟩]) ("v.mp4")) ("v.mp4") = false := by
  with_unfolding_all decide

/-- C3: the job-level progress sequence is *not* monotonically
non-decreasing.  On a first run FFmpeg is missing, so the extractor threads
the worker's callback into the downloader (extractor.py:52), whose fixed
`90` and `100` (ffmpeg_downloader.py:141,176) pass through the 10–30 band
as `28` and `30`; the extractor then resumes with its raw `20`
(extractor.py:56), banded to `14` — the sequence drops `30, 28, 30, 14`.
With download-hook percentages `[50, 100]` the emitted job-level sequence is
`[10, 10, 10, 20, 30, 28, 30, 14, 20, 30]`.  The run then dies in the
mis-matched `transcribe_audio` call (`TypeError`, main_window.py:70 vs
controller.py:41): every progress event still precedes the completion event,
the job completes as failed, and `100` is never reached — but monotonicity
is violated. -/
theorem worker_progress_drop :
    worker_progress_seq false [50, 100] =
      [10, 10, 10, 20, 30, 28, 30, 14, 20, 30] ∧
    isNonDecreasing (worker_progress_seq false [50, 100]) = false ∧
    (worker_run_events false [50, 100]).getLast? =
      some (WorkerEvent.completed false) ∧
    (WorkerEvent.completed true) ∉ worker_run_events false [50, 100] ∧
    (100 : ℤ) ∉ worker_progress_seq false [50, 100] := by
  with_unfolding_all decide

/-- C4 counterexample: the merge condition tests the *incoming* (second)
segment's duration, not the first segment's
(src/modules/subtitler.py:141,146).  Here the first segment is short
(duration 1/10 < 1), the combined length and the gap are within bounds — the
claim demands a merge — yet `merge_short_segments` keeps both segments,
because the second segment's duration (24/5) is not below the default
`min_duration`. -/
theorem merge_first_duration_counterexample :
    ((⟨0, 1/10, "a"⟩ : Segment).endT - (⟨0, 1/10, "a"⟩ : Segment).start < 1 ∧
      (⟨0, 1/10, "a"⟩ : Segment).text.length +
        (⟨2/10, 5, "b"⟩ : Segment).text.length ≤ 100 ∧
      (⟨2/10, 5, "b"⟩ : Segment).start - (⟨0, 1/10, "a"⟩ : Segment).endT ≤ 1) ∧
    merge_short_segments [⟨0, 1/10, "a"⟩, ⟨2/10, 5, "b"⟩] =
      [⟨0, 1/10, "a"⟩, ⟨2/10, 5, "b"⟩] := by
  with_unfolding_all decide

/-- C4 amended: with the default thresholds, two adjacent segments are
combined exactly when the *second* (incoming) segment's duration is below
`min_duration` 1.0, the two text lengths together (separator not counted)
stay within `max_chars` 100, and the gap is at most one second; the merged
segment keeps the first start, takes the later end, and joins the texts with
one space.  The spec's concrete example merges as stated. -/
theorem merge_pair_on_incoming_duration (s1 s2 : Segment) :
    merge_short_segments [s1, s2] =
      (if s2.endT - s2.start < 1 ∧ s1.text.length + s2.text.length ≤ 100 ∧
          s2.start - s1.endT ≤ 1 then
        [⟨s1.start, s2.endT, s1.text ++ " " ++ s2.text⟩]
      else [s1, s2]) ∧
    merge_short_segments [⟨0, 4/10, "Hi"⟩, ⟨5/10, 9/10, "there"⟩] =
      [⟨0, 9/10, "Hi there"⟩] := by
  refine ⟨?_, by with_unfolding_all decide⟩
  simp only [merge_short_segments, mergeLoop]

theorem insertSegments_videos : ∀ (L : List Segment) (db : DB) (vid : ℕ),
    (insertSegments db vid L).videos = db.videos := by
  intro L
  induction L with
  | nil => intro db vid; rfl
  | cons s rest ih => intro db vid; simpa [insertSegments] using ih (insertSegment db vid s) vid

theorem insertSegments_segments : ∀ (L : List Segment) (db : DB) (vid : ℕ),
    (insertSegments db vid L).segments =
      db.segments ++ segRowsFrom db.nextSid vid L := by
  intro L
  induction L with
  | nil => intro db vid; simp [insertSegments, segRowsFrom]
  | cons s rest ih =>
    intro db vid
    rw [insertSegments, ih (insertSegment db vid s) vid]
    simp [insertSegment, segRowsFrom, List.append_assoc]

theorem segRowsFrom_map_seg : ∀ (L : List Segment) (sid vid : ℕ),
    (segRowsFrom sid vid L).map (fun r => r.seg) = L := by
  intro L
  induction L with
  | nil => intro sid vid; rfl
  | cons s rest ih => intro sid vid; simp [segRowsFrom, ih]

theorem segRowsFrom_videoId : ∀ (L : List Segment) (sid vid : ℕ),
    ∀ r ∈ segRowsFrom sid vid L, r.videoId = vid := by
  intro L
  induction L with
  | nil => intro sid vid r hr; cases hr
  | cons s rest ih =>
    intro sid vid r hr
    rcases List.mem_cons.mp hr with h | h
    · subst h; rfl
    · exact ih (sid + 1) vid r h

theorem remove_nextVid (db : DB) (p : String) :
    (remove_video_index db p).nextVid = db.nextVid := by
  unfold remove_video_index
  cases db.videos.find? (fun v => v.path == p) <;> rfl

theorem remove_nextSid (db : DB) (p : String) :
    (remove_video_index db p).nextSid = db.nextSid := by
  unfold remove_video_index
  cases db.videos.find? (fun v => v.path == p) <;> rfl

theorem remove_segments_sub (db : DB) (p : String) :
    ∀ s ∈ (remove_video_index db p).segments, s ∈ db.segments := by
  unfold remove_video_index
  cases db.videos.find? (fun v => v.path == p) with
  | none => intro s hs; exact hs
  | some v => intro s hs; exact (List.mem_filter.mp hs).1

theorem remove_no_path (db : DB) (p : String)
    (hnd : (db.videos.map (fun v => v.path)).Nodup) :
    ∀ v ∈ (remove_video_index db p).videos, ¬ v.path = p := by
  unfold remove_video_index
  cases h : db.videos.find? (fun v => v.path == p) with
  | none =>
    intro v hv hvp
    have := List.find?_eq_none.mp h v hv
    simp [hvp] at this
  | some v0 =>
    intro v hv hvp
    obtain ⟨hv', hid⟩ := List.mem_filter.mp hv
    have hv0mem : v0 ∈ db.videos := List.mem_of_find?_eq_some h
    have hv0p : v0.path = p := by
      have := List.find?_some h
      simpa using this
    have : v = v0 :=
      List.inj_on_of_nodup_map hnd hv' hv0mem (by rw [hvp, hv0p])
    subst this
    simp at hid

theorem join_insert_aux (db1 : DB) (p name : String) (size : ℕ)
    (S : List Segment)
    (hnp : ∀ v ∈ db1.videos, ¬ v.path = p)
    (hslt : ∀ s ∈ db1.segments, s.videoId ≠ db1.nextVid) :
    video_segment_join
      (insertSegments
        { db1 with videos := db1.videos ++ [⟨db1.nextVid, p, name, size⟩],
                   nextVid := db1.nextVid + 1 }
        db1.nextVid S) p = S := by
  unfold video_segment_join
  rw [insertSegments_videos, insertSegments_segments]
  show ((db1.segments ++ segRowsFrom db1.nextSid db1.nextVid S).filter
      (fun s => (db1.videos ++ [(⟨db1.nextVid, p, name, size⟩ : VideoRow)]).any
        (fun v => v.id == s.videoId && v.path == p))).map (fun s => s.seg) = S
  rw [List.filter_append, List.map_append]
  have h1 : db1.segments.filter
      (fun s => (db1.videos ++ [(⟨db1.nextVid, p, name, size⟩ : VideoRow)]).any
        (fun v => v.id == s.videoId && v.path == p)) = [] := by
    apply List.filter_eq_nil_iff.mpr
    intro s hsmem
    simp only [List.any_append, List.any_cons, List.any_nil, Bool.or_false,
      Bool.or_eq_true, List.any_eq_true, Bool.and_eq_true, beq_iff_eq]
    rintro (⟨v, hvmem, hvid, hvp⟩ | ⟨hvid, hvp⟩)
    · exact hnp v hvmem hvp
    · exact hslt s hsmem hvid.symm
  have h2 : (segRowsFrom db1.nextSid db1.nextVid S).filter
      (fun s => (db1.videos ++ [(⟨db1.nextVid, p, name, size⟩ : VideoRow)]).any
        (fun v => v.id == s.videoId && v.path == p)) =
      segRowsFrom db1.nextSid db1.nextVid S := by
    apply List.filter_eq_self.mpr
    intro r hrmem
    have hvid := segRowsFrom_videoId S _ _ r hrmem
    simp only [List.any_append, List.any_cons, List.any_nil, Bool.or_false,
      Bool.or_eq_true, List.any_eq_true, Bool.and_eq_true, beq_iff_eq]
    exact Or.inr ⟨hvid.symm, trivial⟩
  rw [h1, h2, segRowsFrom_map_seg]
  rfl

/-- C2: round-trip — after `index_video p S` on a well-formed database,
`get_all_segments p` returns exactly the segments of `S` sorted by start
time, provided every segment text is non-empty after trim (so the insert
filter keeps all of them). -/
theorem index_roundtrip (db : DB) (p name : String) (size : ℕ)
    (S : List Segment) (hwf : DBWF db) (htext : ∀ s ∈ S, ¬ s.text.trim = "") :
    get_all_segments (index_video db p name size S) p = sortByStart S := by
  obtain ⟨hv, hs, hnd⟩ := hwf
  have hfilter : S.filter (fun s => ! (s.text.trim == "")) = S := by
    apply List.filter_eq_self.mpr
    intro s hsS
    simpa using htext s hsS
  have hew : index_video db p name size S =
      insertSegments
        { remove_video_index db p with
            videos := (remove_video_index db p).videos ++
              [⟨(remove_video_index db p).nextVid, p, name, size⟩],
            nextVid := (remove_video_index db p).nextVid + 1 }
        (remove_video_index db p).nextVid S := by
    unfold index_video
    rw [hfilter]
  unfold get_all_segments
  rw [hew, join_insert_aux]
  · intro v hvmem hvp
    exact remove_no_path db p hnd v hvmem hvp
  · intro s hsmem
    rw [remove_nextVid]
    have h1 : s ∈ db.segments := remove_segments_sub db p s hsmem
    have h2 : s.videoId < db.nextVid := hs s h1
    omega

/-- C2 witness: the round-trip theorem applied to a fresh database and two
segments given out of start order. -/
theorem index_roundtrip_witness :
    DBWF emptyDB ∧
    (∀ s ∈ ([⟨1, 2, "x"⟩, ⟨0, 1, "y"⟩] : List Segment), ¬ s.text.trim = "") ∧
    get_all_segments
        (index_video emptyDB ("a.mp4") ("a.mp4") 3 [⟨1, 2, "x"⟩, ⟨0, 1, "y"⟩])
        ("a.mp4") =
      sortByStart [⟨1, 2, "x"⟩, ⟨0, 1, "y"⟩] :=
  ⟨by with_unfolding_all decide, by with_unfolding_all decide,
    index_roundtrip emptyDB ("a.mp4") ("a.mp4") 3 [⟨1, 2, "x"⟩, ⟨0, 1, "y"⟩]
      (by with_unfolding_all decide) (by with_unfolding_all decide)⟩

/-- C5 counterexample: `optimize_subtitles` does not return a start-ordered
list for every input whose segments satisfy `end > start`.  An unordered
input passes through unchanged, and even a start-sorted input breaks when an
earlier segment overlaps a later one: the split pass spreads the long first
segment over its full span, landing pieces after the second segment's
start. -/
theorem shape_order_counterexample :
    ((∀ s ∈ ([⟨10, 11, "a"⟩, ⟨0, 1, "b"⟩] : List Segment), s.start < s.endT) ∧
      optimize_subtitles [⟨10, 11, "a"⟩, ⟨0, 1, "b"⟩] =
        [⟨10, 11, "a"⟩, ⟨0, 1, "b"⟩] ∧
      ¬ ((optimize_subtitles [⟨10, 11, "a"⟩, ⟨0, 1, "b"⟩]).Pairwise
          fun a b => a.start ≤ b.start)) ∧
    ((∀ s ∈ ([⟨0, 10, String.mk (List.replicate 45 'a') ++ " " ++
            String.mk (List.replicate 45 'b')⟩,
          ⟨1, 5/2, "c"⟩] : List Segment), s.start < s.endT) ∧
      (([⟨0, 10, String.mk (List.replicate 45 'a') ++ " " ++
            String.mk (List.replicate 45 'b')⟩,
          ⟨1, 5/2, "c"⟩] : List Segment).Pairwise fun a b => a.start ≤ b.start) ∧
      ¬ ((optimize_subtitles [⟨0, 10, String.mk (List.replicate 45 'a') ++ " " ++
            String.mk (List.replicate 45 'b')⟩,
          ⟨1, 5/2, "c"⟩]).Pairwise fun a b => a.start ≤ b.start)) := by
  with_unfolding_all decide

theorem mergeLoop_head (md : ℚ) (mc : ℕ) :
    ∀ (l : List Segment) (cur : Segment),
      ∃ e t, mergeLoop md mc cur l = e :: t ∧ e.start = cur.start := by
  intro l
  induction l with
  | nil => intro cur; exact ⟨cur, [], rfl, rfl⟩
  | cons s rest ih =>
    intro cur
    rw [mergeLoop]
    by_cases h : s.endT - s.start < md ∧
        cur.text.length + s.text.length ≤ mc ∧ s.start - cur.endT ≤ 1
    · rw [if_pos h]
      obtain ⟨e, t, heq, hst⟩ :=
        ih { cur with endT := s.endT, text := cur.text ++ " " ++ s.text }
      exact ⟨e, t, heq, hst⟩
    · rw [if_neg h]
      exact ⟨cur, mergeLoop md mc s rest, rfl, rfl⟩

theorem mergeLoop_chrono (md : ℚ) (mc : ℕ) :
    ∀ (l : List Segment) (cur : Segment),
      ((cur :: l).Chain' fun a b => a.endT ≤ b.start) →
      (∀ s ∈ cur :: l, s.start < s.endT) →
      ((mergeLoop md mc cur l).Chain' fun a b => a.endT ≤ b.start) ∧
      (∀ s ∈ mergeLoop md mc cur l, s.start < s.endT) := by
  intro l
  induction l with
  | nil =>
    intro c _ hw
    constructor
    · simp [mergeLoop]
    · intro x hx
      simp only [mergeLoop, List.mem_singleton] at hx
      subst hx
      exact hw x (by simp)
  | cons s rest ih =>
    intro cur hc hw
    have hcs : cur.endT ≤ s.start := (List.chain'_cons.mp hc).1
    have hc' : (s :: rest).Chain' fun a b => a.endT ≤ b.start :=
      (List.chain'_cons.mp hc).2
    have hwcur : cur.start < cur.endT := hw cur (by simp)
    have hws : s.start < s.endT := hw s (by simp)
    rw [mergeLoop]
    by_cases h : s.endT - s.start < md ∧
        cur.text.length + s.text.length ≤ mc ∧ s.start - cur.endT ≤ 1
    · rw [if_pos h]
      apply ih
      · rw [List.chain'_cons']
        refine ⟨?_, (List.chain'_cons'.mp hc').2⟩
        intro y hy
        have := (List.chain'_cons'.mp hc').1 y hy
        exact this
      · intro x hx
        rcases List.mem_cons.mp hx with hx | hx
        · subst hx
          show cur.start < s.endT
          calc cur.start < cur.endT := hwcur
            _ ≤ s.start := hcs
            _ < s.endT := hws
        · exact hw x (by simp [hx])
    · rw [if_neg h]
      obtain ⟨hcm, hwm⟩ := ih s hc' (fun x hx => hw x (List.mem_cons_of_mem _ hx))
      constructor
      · rw [List.chain'_cons']
        refine ⟨?_, hcm⟩
        intro y hy
        obtain ⟨e, t, heq, hst⟩ := mergeLoop_head md mc rest s
        rw [heq] at hy
        simp only [List.head?_cons, Option.mem_def, Option.some.injEq] at hy
        subst hy
        rw [hst]
        exact hcs
      · intro x hx
        rcases List.mem_cons.mp hx with hx | hx
        · subst hx; exact hwcur
        · exact hwm x hx

theorem merge_chrono (md : ℚ) (mc : ℕ) (l : List Segment)
    (hc : l.Chain' fun a b => a.endT ≤ b.start)
    (hw : ∀ s ∈ l, s.start < s.endT) :
    ((merge_short_segments l md mc).Chain' fun a b => a.endT ≤ b.start) ∧
    (∀ s ∈ merge_short_segments l md mc, s.start < s.endT) := by
  cases l with
  | nil => exact ⟨List.chain'_nil, by simp [merge_short_segments]⟩
  | cons s rest => exact mergeLoop_chrono md mc rest s hc hw

theorem splitPieces_wf (a d : ℚ) (hd : 0 < d) :
    ∀ (lines : List String) (i : ℕ),
      ∀ e ∈ splitPieces a d i lines, e.start < e.endT := by
  intro lines
  induction lines with
  | nil => intro i e he; cases he
  | cons line rest ih =>
    intro i e he
    rcases List.mem_cons.mp he with h | h
    · subst h
      show a + (i : ℚ) * d < a + ((i : ℚ) + 1) * d
      have : ((i : ℚ) + 1) * d = (i : ℚ) * d + d := by ring
      linarith
    · exact ih (i + 1) e h

theorem splitPieces_chain (a d : ℚ) :
    ∀ (lines : List String) (i : ℕ),
      (splitPieces a d i lines).Chain' fun x y => x.endT ≤ y.start := by
  intro lines
  induction lines with
  | nil => intro i; exact List.chain'_nil
  | cons line rest ih =>
    intro i
    rw [splitPieces, List.chain'_cons']
    refine ⟨?_, ih (i + 1)⟩
    intro y hy
    cases rest with
    | nil => cases hy
    | cons r rest' =>
      simp only [splitPieces, List.head?_cons, Option.mem_def,
        Option.some.injEq] at hy
      subst hy
      show a + ((i : ℚ) + 1) * d ≤ a + ((i + 1 : ℕ) : ℚ) * d
      push_cast
      exact le_refl _

theorem splitPieces_last (a d : ℚ) :
    ∀ (lines : List String) (i : ℕ), lines ≠ [] →
      ∃ e, (splitPieces a d i lines).getLast? = some e ∧
        e.endT = a + ((i : ℚ) + lines.length) * d := by
  intro lines
  induction lines with
  | nil => intro i h; exact absurd rfl h
  | cons line rest ih =>
    intro i _
    cases rest with
    | nil =>
      refine ⟨⟨a + (i : ℚ) * d, a + ((i : ℚ) + 1) * d, line⟩, rfl, ?_⟩
      simp
    | cons r rest' =>
      obtain ⟨e, hlast, hend⟩ := ih (i + 1) (by simp)
      refine ⟨e, ?_, ?_⟩
      · rw [splitPieces, splitPieces, List.getLast?_cons_cons]
        rw [splitPieces] at hlast
        exact hlast
      · rw [hend]
        simp only [List.length_cons]
        push_cast
        ring

theorem splitOne_head_start (mc : ℕ) (md : ℚ) (s : Segment) :
    ∃ e t, splitOne mc md s = e :: t ∧ e.start = s.start := by
  simp only [splitOne]
  split_ifs with h1 h2
  · exact ⟨s, [], rfl, rfl⟩
  · exact ⟨s, [], rfl, rfl⟩
  · cases hl : wrapWords mc [] (pyWords s.text) with
    | nil => exact absurd hl h2
    | cons line rest =>
      refine ⟨_, _, rfl, ?_⟩
      show s.start + ((0 : ℕ) : ℚ) * _ = s.start
      simp

theorem splitOne_last_end (mc : ℕ) (md : ℚ) (s : Segment) :
    ∃ e, (splitOne mc md s).getLast? = some e ∧ e.endT = s.endT := by
  simp only [splitOne]
  split_ifs with h1 h2
  · exact ⟨s, rfl, rfl⟩
  · exact ⟨s, rfl, rfl⟩
  · obtain ⟨e, hlast, hend⟩ := splitPieces_last s.start
      ((s.endT - s.start) / ((wrapWords mc [] (pyWords s.text)).length : ℚ))
      (wrapWords mc [] (pyWords s.text)) 0 h2
    refine ⟨e, hlast, ?_⟩
    rw [hend]
    have hn : (((wrapWords mc [] (pyWords s.text)).length : ℕ) : ℚ) ≠ 0 := by
      rw [Nat.cast_ne_zero]
      simpa [List.length_eq_zero] using h2
    rw [Nat.cast_zero, zero_add, mul_comm, div_mul_cancel₀ _ hn]
    ring

theorem splitOne_wf (mc : ℕ) (md : ℚ) (s : Segment) (h : s.start < s.endT) :
    ∀ e ∈ splitOne mc md s, e.start < e.endT := by
  simp only [splitOne]
  split_ifs with h1 h2
  · intro e he
    simp only [List.mem_singleton] at he
    subst he; exact h
  · intro e he
    simp only [List.mem_singleton] at he
    subst he; exact h
  · intro e he
    have hlen : 0 < (((wrapWords mc [] (pyWords s.text)).length : ℕ) : ℚ) := by
      rw [Nat.cast_pos]
      exact List.length_pos.mpr h2
    have hd : 0 < (s.endT - s.start) /
        ((wrapWords mc [] (pyWords s.text)).length : ℚ) :=
      div_pos (by linarith) hlen
    exact splitPieces_wf _ _ hd _ 0 e he

theorem splitOne_chain (mc : ℕ) (md : ℚ) (s : Segment) :
    (splitOne mc md s).Chain' fun x y => x.endT ≤ y.start := by
  simp only [splitOne]
  split_ifs with h1 h2
  · simp
  · simp
  · exact splitPieces_chain _ _ _ 0

theorem split_long_cons (mc : ℕ) (md : ℚ) (b : Segment) (rest : List Segment) :
    split_long_segments (b :: rest) mc md =
      splitOne mc md b ++ split_long_segments rest mc md := by
  simp [split_long_segments]

theorem split_chrono (mc : ℕ) (md : ℚ) : ∀ l : List Segment,
    (l.Chain' fun a b => a.endT ≤ b.start) →
    (∀ s ∈ l, s.start < s.endT) →
    ((split_long_segments l mc md).Chain' fun a b => a.endT ≤ b.start) ∧
    (∀ e ∈ split_long_segments l mc md, e.start < e.endT) := by
  intro l
  induction l with
  | nil => intro _ _; simp [split_long_segments]
  | cons b rest ih =>
    intro hc hw
    have hc' : rest.Chain' fun a b => a.endT ≤ b.start :=
      (List.chain'_cons'.mp hc).2
    have hw' : ∀ s ∈ rest, s.start < s.endT :=
      fun s hs => hw s (List.mem_cons_of_mem _ hs)
    obtain ⟨hcm, hwm⟩ := ih hc' hw'
    rw [split_long_cons]
    constructor
    · rw [List.chain'_append]
      refine ⟨splitOne_chain mc md b, hcm, ?_⟩
      intro x hx y hy
      obtain ⟨e, hlast, hend⟩ := splitOne_last_end mc md b
      rw [hlast] at hx
      simp only [Option.mem_def, Option.some.injEq] at hx
      subst hx
      cases rest with
      | nil => simp [split_long_segments] at hy
      | cons r rest' =>
        obtain ⟨e2, t2, heq2, hst2⟩ := splitOne_head_start mc md r
        rw [split_long_cons, heq2] at hy
        simp only [List.cons_append, List.head?_cons, Option.mem_def,
          Option.some.injEq] at hy
        subst hy
        rw [hend, hst2]
        exact (List.chain'_cons.mp hc).1
    · intro e he
      rcases List.mem_append.mp he with h | h
      · exact splitOne_wf mc md b (hw b (by simp)) e h
      · exact hwm e h

theorem chain_le_all : ∀ (l : List Segment) (a : Segment),
    ((a :: l).Chain' fun x y => x.endT ≤ y.start) →
    (∀ s ∈ a :: l, s.start < s.endT) →
    ∀ b ∈ l, a.endT ≤ b.start := by
  intro l
  induction l with
  | nil => intro a _ _ b hb; cases hb
  | cons c rest ih =>
    intro a hc hw b hb
    have hac : a.endT ≤ c.start := (List.chain'_cons.mp hc).1
    rcases List.mem_cons.mp hb with h | h
    · subst h; exact hac
    · have hcw : c.start < c.endT := hw c (by simp)
      have := ih c (List.chain'_cons.mp hc).2
        (fun s hs => hw s (List.mem_cons_of_mem _ hs)) b h
      linarith

theorem chrono_pairwise : ∀ l : List Segment,
    (l.Chain' fun x y => x.endT ≤ y.start) →
    (∀ s ∈ l, s.start < s.endT) →
    l.Pairwise fun x y => x.start ≤ y.start := by
  intro l
  induction l with
  | nil => intro _ _; exact List.Pairwise.nil
  | cons a rest ih =>
    intro hc hw
    refine List.pairwise_cons.mpr ⟨?_, ?_⟩
    · intro b hb
      have h1 : a.start < a.endT := hw a (by simp)
      have h2 : a.endT ≤ b.start := chain_le_all rest a hc hw b hb
      linarith
    · exact ih hc.tail
        (fun s hs => hw s (List.mem_cons_of_mem _ hs))

/-- C5 amended: for every chronological input — segments ordered with each
segment starting no earlier than the previous one ends, and each satisfying
`end > start` — the output of the shape pipeline (merge pass then split pass)
is ordered by start time and every output segment satisfies `end > start`.
(The claim's original unconditional form fails: see the counterexample, where
an unordered input and an overlapping sorted input both produce unordered
output.) -/
theorem optimize_subtitles_ordered (l : List Segment)
    (hchain : l.Chain' fun a b => a.endT ≤ b.start)
    (hwf : ∀ s ∈ l, s.start < s.endT) :
    ((optimize_subtitles l).Pairwise fun a b => a.start ≤ b.start) ∧
    ∀ s ∈ optimize_subtitles l, s.start < s.endT := by
  obtain ⟨hc1, hw1⟩ := merge_chrono 1 100 l hchain hwf
  obtain ⟨hc2, hw2⟩ := split_chrono 80 6 (merge_short_segments l) hc1 hw1
  exact ⟨chrono_pairwise _ hc2 hw2, hw2⟩

/-- C5 witness: the shape theorem applied to two concrete chronological
segments. -/
theorem optimize_subtitles_ordered_witness :
    (([⟨0, 1, "Hi"⟩, ⟨2, 3, "there"⟩] : List Segment).Chain'
      fun a b => a.endT ≤ b.start) ∧
    (∀ s ∈ ([⟨0, 1, "Hi"⟩, ⟨2, 3, "there"⟩] : List Segment),
      s.start < s.endT) ∧
    (((optimize_subtitles [⟨0, 1, "Hi"⟩, ⟨2, 3, "there"⟩]).Pairwise
        fun a b => a.start ≤ b.start) ∧
      ∀ s ∈ optimize_subtitles [⟨0, 1, "Hi"⟩, ⟨2, 3, "there"⟩],
        s.start < s.endT) :=
  ⟨by simp, by decide,
    optimize_subtitles_ordered [⟨0, 1, "Hi"⟩, ⟨2, 3, "there"⟩]
      (by simp) (by decide)⟩

/-- C6 counterexample: a single-token query containing a double quote is
passed through with only `*` appended — the quote is not escaped
(src/modules/indexer.py:197-203 escapes only in the phrase branch), so the
produced FTS query has an odd number of quote characters, i.e. an
unterminated string the engine rejects. -/
theorem prepare_fts_query_unescaped_counterexample :
    ("ab\"c").contains '"' = true ∧
    prepare_fts_query ("ab\"c") = "ab\"c*" ∧
    ¬ ftsBalanced (prepare_fts_query ("ab\"c")) := by
  with_unfolding_all decide

/-- C7 counterexample: the SQL orders by `rank` alone
(src/modules/indexer.py:166) — there is no start-time tie-break.  With two
matching segments of equal rank stored with the later start first, `search`
returns them in storage order, not by earlier start. -/
theorem search_tiebreak_counterexample :
    search (index_video emptyDB ("v") ("v") 0 [⟨5, 6, "x"⟩, ⟨0, 1, "y"⟩]) ("v")
        ("hello") (fun _ _ => true) (fun _ _ => 0) 50 =
      [⟨5, 6, "x"⟩, ⟨0, 1, "y"⟩] ∧
    ¬ ((search (index_video emptyDB ("v") ("v") 0 [⟨5, 6, "x"⟩, ⟨0, 1, "y"⟩])
          ("v") ("hello") (fun _ _ => true) (fun _ _ => 0) 50).Pairwise
        fun a b => a.start ≤ b.start) := by
  with_unfolding_all decide

/-- Invariant of the submission fold: starting from a duplicate-free worker
table, the fold only appends fresh, unindexed paths to both the worker table
and the started list, keeps the table duplicate-free, and short-circuits
exactly indexed paths that never enter the worker table. -/
theorem submit_go (indexed : String → Bool) :
    ∀ (tasks ws st sc : List String), ws.Nodup →
      (∀ p ∈ sc, indexed p = true ∧ p ∉ ws) →
      ∃ nw nc,
        tasks.foldl (submitStep indexed) (ws, st, sc) =
          (ws ++ nw, st ++ nw, sc ++ nc) ∧
        (ws ++ nw).Nodup ∧
        (∀ p ∈ nw, p ∉ ws ∧ indexed p = false) ∧
        (∀ p ∈ sc ++ nc, indexed p = true ∧ p ∉ ws ++ nw) := by
  intro tasks
  induction tasks with
  | nil =>
    intro ws st sc hw hsc
    refine ⟨[], [], by simp, by simpa using hw, by simp, ?_⟩
    intro p hp
    simp only [List.append_nil] at hp ⊢
    exact hsc p hp
  | cons path rest ih =>
    intro ws st sc hw hsc
    simp only [List.foldl_cons, submitStep]
    by_cases hmem : path ∈ ws
    · rw [if_pos hmem]
      exact ih ws st sc hw hsc
    · rw [if_neg hmem]
      by_cases hidx : indexed path = true
      · rw [if_pos hidx]
        obtain ⟨nw, nc, heq, hnd, hnw, hsc'⟩ :=
          ih ws st (sc ++ [path]) hw (by
            intro p hp
            rcases List.mem_append.mp hp with h | h
            · exact hsc p h
            · simp only [List.mem_singleton] at h
              subst h
              exact ⟨hidx, hmem⟩)
        refine ⟨nw, path :: nc, ?_, hnd, hnw, ?_⟩
        · rw [heq]; simp
        · intro p hp
          apply hsc'
          simp only [List.mem_append, List.mem_cons, List.mem_singleton] at hp ⊢
          tauto
      · rw [if_neg hidx]
        have hidx' : indexed path = false := by
          cases h : indexed path
          · rfl
          · exact absurd h hidx
        obtain ⟨nw, nc, heq, hnd, hnw, hsc'⟩ :=
          ih (ws ++ [path]) (st ++ [path]) sc
            (by simp [List.nodup_append, hmem, hw])
            (by
              intro p hp
              obtain ⟨h1, h2⟩ := hsc p hp
              refine ⟨h1, ?_⟩
              simp only [List.mem_append, List.mem_singleton]
              rintro (h | h)
              · exact h2 h
              · subst h
                rw [h1] at hidx'
                exact Bool.noConfusion hidx')
        refine ⟨path :: nw, nc, ?_, ?_, ?_, ?_⟩
        · rw [heq]; simp
        · simpa using hnd
        · intro p hp
          simp only [List.mem_cons] at hp
          rcases hp with h | h
          · subst h; exact ⟨hmem, hidx'⟩
          · obtain ⟨h1, h2⟩ := hnw p h
            refine ⟨?_, h2⟩
            intro hin
            exact h1 (List.mem_append_left _ hin)
        · intro p hp
          obtain ⟨h1, h2⟩ := hsc' p hp
          refine ⟨h1, ?_⟩
          intro hin
          apply h2
          simp only [List.mem_append, List.mem_cons, List.mem_singleton] at hin ⊢
          tauto

/-- C8: submitting a batch creates and starts a runner exactly for the paths
with no live runner and no prior index: the worker table grows by the started
paths only, stays duplicate-free (at most one running job per path), every
started path was neither running nor indexed, and every already indexed path
is short-circuited (widget set to 100) without a runner ever being created
for it. -/
theorem start_transcription_one_runner_per_path (tasks : List String)
    (indexed : String → Bool) (workers : List String) (hw : workers.Nodup) :
    (start_transcription tasks indexed workers).1 =
      workers ++ (start_transcription tasks indexed workers).2.1 ∧
    (start_transcription tasks indexed workers).1.Nodup ∧
    (∀ p ∈ (start_transcription tasks indexed workers).2.1,
      p ∉ workers ∧ indexed p = false) ∧
    (∀ p ∈ (start_transcription tasks indexed workers).2.2,
      indexed p = true ∧ p ∉ (start_transcription tasks indexed workers).1) := by
  obtain ⟨nw, nc, heq, hnd, hnw, hsc⟩ :=
    submit_go indexed tasks workers [] [] hw (by simp)
  unfold start_transcription
  rw [heq]
  exact ⟨rfl, hnd, fun p hp => hnw p hp, fun p hp => hsc p hp⟩

/-- C8 witness: the submission theorem applied to the concrete batch
`["a", "b", "a", "c"]` with `"b"` already indexed and `"c"` already
running. -/
theorem start_transcription_one_runner_per_path_witness :
    (start_transcription ["a", "b", "a", "c"] (fun s => s == "b") ["c"]).1 =
      ["c"] ++ (start_transcription ["a", "b", "a", "c"]
        (fun s => s == "b") ["c"]).2.1 ∧
    (start_transcription ["a", "b", "a", "c"] (fun s => s == "b") ["c"]).1.Nodup ∧
    (∀ p ∈ (start_transcription ["a", "b", "a", "c"]
        (fun s => s == "b") ["c"]).2.1,
      p ∉ (["c"] : List String) ∧ (fun s => s == "b") p = false) ∧
    (∀ p ∈ (start_transcription ["a", "b", "a", "c"]
        (fun s => s == "b") ["c"]).2.2,
      (fun s => s == "b") p = true ∧
        p ∉ (start_transcription ["a", "b", "a", "c"]
          (fun s => s == "b") ["c"]).1) :=
  start_transcription_one_runner_per_path ["a", "b", "a", "c"]
    (fun s => s == "b") ["c"] (by decide)

/-- C9: a storage failure during the read `get_all_segments` is recovered
locally as the empty list, while a storage failure during the write
`index_video` is surfaced as a raised `RuntimeError` carrying the failure
message; the healthy paths run the underlying operations unchanged. -/
theorem store_error_read_write_asymmetry (e p name : String) (size : ℕ)
    (S : List Segment) (db : DB) :
    get_all_segments_result (Except.error e) p = [] ∧
    get_all_segments_result (Except.ok db) p = get_all_segments db p ∧
    index_video_result (Except.error e) p name size S =
      Except.error ("Video indexing failed: " ++ e) ∧
    index_video_result (Except.ok db) p name size S =
      Except.ok (index_video db p name size S) := by
  exact ⟨rfl, rfl, rfl, rfl⟩

/-- C10: `is_video_indexed` never raises — the failing branch returns
`false`, exactly the value reported for a video absent from a healthy store,
so a storage failure is indistinguishable from "not yet indexed" through this
operation. -/
theorem is_video_indexed_error_as_unindexed (e p : String) (db : DB) :
    is_video_indexed_result (Except.error e) p = false ∧
    is_video_indexed_result (Except.ok db) p = is_video_indexed db p ∧
    is_video_indexed_result (Except.error e) p =
      is_video_indexed_result (Except.ok emptyDB) p := by
  exact ⟨rfl, rfl, rfl⟩

theorem escQuotes_count (l : List Char) :
    (escQuotes l).count '"' = 2 * l.count '"' := by
  induction l with
  | nil => rfl
  | cons c t ih =>
    by_cases h : c = '"'
    · subst h
      simp [escQuotes, List.count_cons, ih]
      omega
    · simp [escQuotes, h, List.count_cons, ih]

theorem collapse_escQuotes (l : List Char) :
    collapseQuotes (escQuotes l) = l := by
  induction l with
  | nil => rfl
  | cons c t ih =>
    by_cases h : c = '"'
    · subst h
      simp [escQuotes, collapseQuotes, ih]
    · cases h2 : escQuotes t with
      | nil =>
        have : t = [] := by
          cases t with
          | nil => rfl
          | cons d t' =>
            by_cases hd : d = '"' <;> simp [escQuotes, hd] at h2
        subst this
        simp [escQuotes, h, collapseQuotes]
      | cons d t' =>
        rw [escQuotes]
        rw [if_neg h, h2, collapseQuotes]
        rw [if_neg]
        · rw [← h2, ih]
        · rintro ⟨hc, _⟩
          exact h hc

/-- C6 amended: a trimmed query containing a space becomes an exact-phrase
query — wrapped in double quotes with every inner quote doubled, which keeps
the quote count even (syntactically valid) and loses no character or order
(the doubling collapses back to the original); a non-empty trimmed query
without a space becomes a prefix query, the token with `*` appended and *no*
escaping, so only the phrase branch escapes special characters (see the
counterexample for the resulting invalid single-token query). -/
theorem prepare_fts_query_amended (q : String) :
    (q.trim.contains ' ' = false ∨
      (prepare_fts_query q = "\"" ++ pyReplaceQuote q.trim ++ "\"" ∧
        ftsBalanced (prepare_fts_query q) ∧
        collapseQuotes (pyReplaceQuote q.trim).data = q.trim.data)) ∧
    (q.trim = "" ∨ q.trim.contains ' ' = true ∨
      prepare_fts_query q = q.trim ++ "*") := by
  constructor
  · cases hsp : q.trim.contains ' ' with
    | false => exact Or.inl rfl
    | true =>
      have hne : ¬ q.trim = "" := by
        intro h
        rw [h] at hsp
        exact absurd hsp (by with_unfolding_all decide)
      have heq : prepare_fts_query q = "\"" ++ pyReplaceQuote q.trim ++ "\"" := by
        simp only [prepare_fts_query]
        rw [if_neg hne, if_pos hsp]
      refine Or.inr ⟨heq, ?_, collapse_escQuotes q.trim.data⟩
      show quoteCount (prepare_fts_query q) % 2 = 0
      rw [heq]
      unfold quoteCount
      rw [String.data_append, String.data_append]
      have h1 : ("\"" : String).data = ['"'] := rfl
      have h2 : (pyReplaceQuote q.trim).data = escQuotes q.trim.data := rfl
      rw [h1, h2]
      simp only [List.count_append, List.count_cons, List.count_nil,
        escQuotes_count]
      omega
  · by_cases hemp : q.trim = ""
    · exact Or.inl hemp
    · cases hsp : q.trim.contains ' ' with
      | true => exact Or.inr (Or.inl rfl)
      | false =>
        refine Or.inr (Or.inr ?_)
        simp only [prepare_fts_query]
        rw [if_neg hemp, if_neg (by simp [hsp])]

/-- C7 amended: for every database, path and query, and every behaviour of
the external FTS5 engine (`em` the match test, `er` the rank value on the
prepared query), `search` returns at most `limit` rows, every returned row is
a segment of the video found at the path that the engine matched, and rows
are ordered by rank, best (lowest) first.  Equal ranks stay in segment
storage order — the SQL has no start-time tie-break (see the
counterexample). -/
theorem search_scoped_ranked_limited (db : DB) (p qs : String)
    (em : String → String → Bool) (er : String → String → ℚ) (lim : ℕ) :
    (search db p qs em er lim).length ≤ lim ∧
    ((search db p qs em er lim).Pairwise fun a b =>
      er (prepare_fts_query qs) a.text ≤ er (prepare_fts_query qs) b.text) ∧
    ∀ h ∈ search db p qs em er lim,
      ∃ v, db.videos.find? (fun w => w.path == p) = some v ∧
        ∃ srow ∈ db.segments, srow.videoId = v.id ∧ srow.seg = h ∧
          em (prepare_fts_query qs) h.text = true := by
  unfold search
  cases hf : db.videos.find? (fun v => v.path == p) with
  | none => simp
  | some v =>
    haveI htot : IsTotal Segment (fun a b : Segment =>
        er (prepare_fts_query qs) a.text ≤ er (prepare_fts_query qs) b.text) :=
      ⟨fun a b => le_total _ _⟩
    haveI htr : IsTrans Segment (fun a b : Segment =>
        er (prepare_fts_query qs) a.text ≤ er (prepare_fts_query qs) b.text) :=
      ⟨fun a b c hab hbc => le_trans hab hbc⟩
    refine ⟨List.length_take_le _ _, ?_, ?_⟩
    · apply List.Pairwise.sublist (List.take_sublist _ _)
      exact List.sorted_insertionSort _ _
    · intro h hh
      have hmem : h ∈ List.insertionSort
          (fun a b : Segment =>
            er (prepare_fts_query qs) a.text ≤ er (prepare_fts_query qs) b.text)
          ((db.segments.filter
            (fun s => s.videoId == v.id &&
              em (prepare_fts_query qs) s.seg.text)).map (fun s => s.seg)) :=
        (List.take_sublist _ _).subset hh
      have hmem2 := (List.perm_insertionSort _ _).subset hmem
      obtain ⟨srow, hsmem, hseq⟩ := List.mem_map.mp hmem2
      obtain ⟨hsdb, hcond⟩ := List.mem_filter.mp hsmem
      rw [Bool.and_eq_true] at hcond
      refine ⟨v, rfl, srow, hsdb, ?_, hseq, ?_⟩
      · exact beq_iff_eq.mp hcond.1
      · rw [← hseq]
        exact hcond.2

end VideoText
